import Mathlib

/-!
A verification development for the `deep_collection` library
(`src/deep_collection/__init__.py`), a Python module providing path-based
addressing into arbitrarily nested heterogeneous containers.

Shallow embedding conventions:
* Python values are modelled by `PyVal` (integers, strings, lists, dicts).
  A Python dict is an association list in insertion order; real Python dicts
  always have hashable, pairwise-distinct keys, captured by the
  well-formedness predicate `wf`.
* In-place mutation is modelled functionally: a mutating operation takes the
  container and returns the new container (the Python objects form a tree,
  and the source never relies on aliasing between distinct paths).
* Fallible operations return `Except PyErr _`.  `PyErr` has exactly the three
  exception kinds the source raises and catches for container access
  (`KeyError`, `IndexError`, `TypeError`), so a Python
  `except (KeyError, IndexError, TypeError)` is a catch-all here.
* Python `==` is modelled by `pyEq`; note Python dict equality is insensitive
  to insertion order, hence `pyEq` is not plain structural equality.
-/

inductive PyVal where
  | vInt (n : Int)
  | vStr (s : String)
  | vList (xs : List PyVal)
  | vDict (entries : List (PyVal × PyVal))
deriving Inhabited, Repr

inductive PyErr where
  | keyError
  | indexError
  | typeError
deriving DecidableEq, Repr

/-- `_stringlike(obj)`: True for str/bytes/bytearray.  The model has a single
string type. -/
def stringlike : PyVal → Bool
  | .vStr _ => true
  | _ => false

/-- `_can_be_deep(obj)`: iterable and not stringlike.  Lists and dicts are
iterable; ints are not; strings are iterable but stringlike. -/
def can_be_deep : PyVal → Bool
  | .vList _ => true
  | .vDict _ => true
  | _ => false

/-- Whether a value is hashable in Python: ints and strings are, lists and
dicts are not. -/
def hashable : PyVal → Bool
  | .vInt _ => true
  | .vStr _ => true
  | _ => false

mutual
/-- Python `==` on modelled values.  Ints and strings compare by value, lists
elementwise, dicts as unordered key-value maps (CPython `dict_equal`: equal
lengths and every key of the left dict maps, in the right dict, to an equal
value). -/
def pyEq (a b : PyVal) : Bool :=
  match a, b with
  | .vInt x, .vInt y => x == y
  | .vStr x, .vStr y => x == y
  | .vList xs, .vList ys => pyEqL xs ys
  | .vDict es, .vDict fs => Nat.beq es.length fs.length && pyEqIn es fs
  | _, _ => false
termination_by sizeOf a + sizeOf b

/-- Elementwise Python `==` of two lists (false on length mismatch). -/
def pyEqL (xs ys : List PyVal) : Bool :=
  match xs, ys with
  | [], [] => true
  | x :: xs2, y :: ys2 => pyEq x y && pyEqL xs2 ys2
  | _, _ => false
termination_by sizeOf xs + sizeOf ys

/-- Every entry of `es` is matched in `fs`: its key is found in `fs` (by
Python `==`) with a Python-equal value. -/
def pyEqIn (es fs : List (PyVal × PyVal)) : Bool :=
  match es with
  | [] => true
  | (k, v) :: es2 => pyLookupEq fs k v && pyEqIn es2 fs
termination_by sizeOf es + sizeOf fs

/-- Look up key `k` in `fs` (first entry whose key is Python-equal to `k`) and
compare the stored value with `v`. -/
def pyLookupEq (fs : List (PyVal × PyVal)) (k v : PyVal) : Bool :=
  match fs with
  | [] => false
  | (k2, v2) :: fs2 => if pyEq k2 k then pyEq v v2 else pyLookupEq fs2 k v
termination_by sizeOf fs + sizeOf k + sizeOf v
end

/-- Dict lookup: the first entry whose key is Python-equal to `k`. -/
def pyFind (fs : List (PyVal × PyVal)) (k : PyVal) : Option PyVal :=
  match fs with
  | [] => none
  | (k2, v2) :: fs2 => if pyEq k2 k then some v2 else pyFind fs2 k

/-- A Python index normalized against a container of length `n`: negative
indices count from the end. -/
def idxNorm (n : Nat) (i : Int) : Int :=
  if i < 0 then i + n else i

/-- Normalize a Python index against a container of length `n`; `none` when
out of range. -/
def listIdx (n : Nat) (i : Int) : Option Nat :=
  if 0 ≤ idxNorm n i ∧ idxNorm n i < (n : Int) then some (idxNorm n i).toNat else none

/-- Python `xs[i]` on a list. -/
def pyListGet (xs : List PyVal) (i : Int) : Except PyErr PyVal :=
  match listIdx xs.length i with
  | some j => .ok (xs.getD j (.vInt 0))
  | none => .error .indexError

/-- Python `s[i]` on a string: the one-character string at (possibly
negative) index `i`. -/
def pyStrGet (s : String) (i : Int) : Except PyErr PyVal :=
  match listIdx s.length i with
  | some j => .ok (.vStr (String.mk [s.data.getD j ' ']))
  | none => .error .indexError

/-- Python `d[k]` on a dict: unhashable keys raise TypeError, missing keys
KeyError. -/
def pyDictGet (es : List (PyVal × PyVal)) (k : PyVal) : Except PyErr PyVal :=
  if hashable k then
    match pyFind es k with
    | some v => .ok v
    | none => .error .keyError
  else .error .typeError

/-- Python `d[k] = v`: replace the value at the first entry whose key equals
`k` (keeping the original key object and position), else append. -/
def dictAssign (es : List (PyVal × PyVal)) (k v : PyVal) : List (PyVal × PyVal) :=
  match es with
  | [] => [(k, v)]
  | (k2, v2) :: es2 => if pyEq k2 k then (k2, v) :: es2 else (k2, v2) :: dictAssign es2 k v

/-- Python `del d[k]`: drop the first entry whose key equals `k`; `none` when
the key is absent. -/
def dictRemove (es : List (PyVal × PyVal)) (k : PyVal) : Option (List (PyVal × PyVal)) :=
  match es with
  | [] => none
  | (k2, v2) :: es2 =>
      if pyEq k2 k then some es2
      else (dictRemove es2 k).map (fun es3 => (k2, v2) :: es3)

/-- Python `obj[key]` (`operator.getitem`). -/
def pyGetItem (obj key : PyVal) : Except PyErr PyVal :=
  match obj, key with
  | .vList xs, .vInt i => pyListGet xs i
  | .vList _, _ => .error .typeError
  | .vDict es, k => pyDictGet es k
  | .vStr s, .vInt i => pyStrGet s i
  | .vStr _, _ => .error .typeError
  | .vInt _, _ => .error .typeError

/-- Python `obj[key] = v`.  Strings and ints do not support item assignment. -/
def pySetItem (obj key v : PyVal) : Except PyErr PyVal :=
  match obj, key with
  | .vList xs, .vInt i =>
      match listIdx xs.length i with
      | some j => .ok (.vList (xs.set j v))
      | none => .error .indexError
  | .vList _, _ => .error .typeError
  | .vDict es, k =>
      if hashable k then .ok (.vDict (dictAssign es k v)) else .error .typeError
  | _, _ => .error .typeError

/-- Python `del obj[key]`. -/
def pyDelItem (obj key : PyVal) : Except PyErr PyVal :=
  match obj, key with
  | .vList xs, .vInt i =>
      match listIdx xs.length i with
      | some j => .ok (.vList (xs.eraseIdx j))
      | none => .error .indexError
  | .vList _, _ => .error .typeError
  | .vDict es, k =>
      if hashable k then
        match dictRemove es k with
        | some es2 => .ok (.vDict es2)
        | none => .error .keyError
      else .error .typeError
  | _, _ => .error .typeError

/-- `get_by_path(obj, path)`: `reduce(operator.getitem, path, obj)`. -/
def get_by_path (obj : PyVal) : List PyVal → Except PyErr PyVal
  | [] => .ok obj
  | k :: ks =>
      match pyGetItem obj k with
      | .ok v => get_by_path v ks
      | .error e => .error e

/-- Functional counterpart of the in-place mutation
`get_by_path(obj, pre)[k] = v`: navigate `pre`, assign at `k`, and rebuild the
spine.  (Re-assigning a just-read child back into its parent is the identity
on the parent apart from that slot, so this models Python's aliased in-place
write on a tree-shaped object graph.) -/
def updateAt (obj : PyVal) (pre : List PyVal) (k v : PyVal) : Except PyErr PyVal :=
  match pre with
  | [] => pySetItem obj k v
  | q :: qs =>
      match pyGetItem obj q with
      | .ok child =>
          match updateAt child qs k v with
          | .ok child2 => pySetItem obj q child2
          | .error e => .error e
      | .error e => .error e

/-- Functional counterpart of `del get_by_path(obj, pre)[k]`. -/
def delAt (obj : PyVal) (pre : List PyVal) (k : PyVal) : Except PyErr PyVal :=
  match pre with
  | [] => pyDelItem obj k
  | q :: qs =>
      match pyGetItem obj q with
      | .ok child =>
          match delAt child qs k with
          | .ok child2 => pySetItem obj q child2
          | .error e => .error e
      | .error e => .error e

/-- `del_by_path(obj, path)`: `del get_by_path(obj, path[:-1])[path[-1]]`.
On an empty path, `path[-1]` itself raises IndexError. -/
def del_by_path (obj : PyVal) (path : List PyVal) : Except PyErr PyVal :=
  match path.getLast? with
  | none => .error .indexError
  | some k => delAt obj path.dropLast k

/-- One probe step of `set_by_path`: the source tries `branch[part]`; on
KeyError/IndexError it assigns `branch[part] = {}` (auto-vivification, where
`branch` sits at path `traversed` in `obj`); other errors (i.e. TypeError)
propagate. -/
def setStep (obj branch : PyVal) (traversed : List PyVal) (part : PyVal) :
    Except PyErr PyVal :=
  match pyGetItem branch part with
  | .ok _ => .ok obj
  | .error .keyError => updateAt obj traversed part (.vDict [])
  | .error .indexError => updateAt obj traversed part (.vDict [])
  | .error e => .error e

/-- The loop of `set_by_path`: `traversed` is the already-consumed part of
the path (so `get_by_path obj traversed` is Python's `branch`) and `rest` the
remaining parts; when `traversed` has reached the full path
(`traversed == path`, i.e. the remainder after the current part is empty) the
loop assigns `branch[part] = value`. -/
def setGo (obj : PyVal) (traversed : List PyVal) (rest : List PyVal) (value : PyVal) :
    Except PyErr PyVal :=
  match rest with
  | [] => .ok obj
  | part :: rest2 =>
      match get_by_path obj traversed with
      | .error e => .error e
      | .ok branch =>
          match setStep obj branch traversed part with
          | .error e => .error e
          | .ok obj2 =>
              match rest2 with
              | [] => updateAt obj2 traversed part value
              | _ => setGo obj2 (traversed ++ [part]) rest2 value

/-- `set_by_path(obj, path, value)`. -/
def set_by_path (obj : PyVal) (path : List PyVal) (value : PyVal) : Except PyErr PyVal :=
  setGo obj [] path value

/-- C10: `set_by_path` with the empty path returns without error and leaves
the container unchanged: the loop body never runs, so nothing is assigned and
the value is discarded. -/
theorem set_by_path_nil_noop (obj v : PyVal) : set_by_path obj [] v = .ok obj := rfl

/-! ### Basic facts about the primitives -/

theorem pyEq_refl_hashable {k : PyVal} (hk : hashable k = true) : pyEq k k = true := by
  cases k <;> simp_all [hashable, pyEq]

theorem listIdx_lt {n : Nat} {i : Int} {j : Nat} (h : listIdx n i = some j) : j < n := by
  simp only [listIdx] at h
  split at h
  · rename_i hj
    injection h with h
    omega
  · exact absurd h (by simp)

theorem pyFind_dictAssign {es : List (PyVal × PyVal)} {k : PyVal} (v : PyVal)
    (hk : hashable k = true) : pyFind (dictAssign es k v) k = some v := by
  induction es with
  | nil => simp [dictAssign, pyFind, pyEq_refl_hashable hk]
  | cons e es2 ih =>
      obtain ⟨k2, v2⟩ := e
      by_cases h : pyEq k2 k = true
      · simp [dictAssign, h, pyFind]
      · simp only [dictAssign, h]
        simp only [Bool.not_eq_true] at h
        simp [pyFind, h, ih]

/-- Read-after-write at a single level: a successful `obj[k] = v` makes a
subsequent `obj[k]` return `v`. -/
theorem pySetItem_get {obj k v obj2 : PyVal} (h : pySetItem obj k v = .ok obj2) :
    pyGetItem obj2 k = .ok v := by
  cases obj with
  | vInt n => simp [pySetItem] at h
  | vStr s => simp [pySetItem] at h
  | vList xs =>
      cases k with
      | vInt i =>
          simp only [pySetItem] at h
          cases hj : listIdx xs.length i with
          | none => rw [hj] at h; exact absurd h (by simp)
          | some j =>
              rw [hj] at h
              injection h with h
              subst h
              have hlt : j < xs.length := listIdx_lt hj
              simp only [pyGetItem, pyListGet, List.length_set, hj]
              rw [List.getD_eq_getElem _ _ (by simpa using hlt)]
              simp
      | vStr s => simp [pySetItem] at h
      | vList ys => simp [pySetItem] at h
      | vDict fs => simp [pySetItem] at h
  | vDict es =>
      simp only [pySetItem] at h
      by_cases hk : hashable k = true
      · rw [if_pos hk] at h
        injection h with h
        subst h
        simp [pyGetItem, pyDictGet, hk, pyFind_dictAssign v hk]
      · rw [if_neg hk] at h
        exact absurd h (by simp)

/-- Read-after-write along a path: a successful
`get_by_path(obj, pre)[k] = v` makes `get_by_path(obj, pre + [k])` return
`v`. -/
theorem updateAt_get {pre : List PyVal} :
    ∀ {obj k v obj2 : PyVal}, updateAt obj pre k v = .ok obj2 →
      get_by_path obj2 (pre ++ [k]) = .ok v := by
  induction pre with
  | nil =>
      intro obj k v obj2 h
      simp only [updateAt] at h
      simp [get_by_path, pySetItem_get h]
  | cons q qs ih =>
      intro obj k v obj2 h
      simp only [updateAt] at h
      cases hc : pyGetItem obj q with
      | error e => simp [hc] at h
      | ok child =>
          simp only [hc] at h
          cases hu : updateAt child qs k v with
          | error e => simp [hu] at h
          | ok child2 =>
              simp only [hu] at h
              simp only [List.cons_append, get_by_path, pySetItem_get h]
              exact ih hu

/-- Soundness of the `set_by_path` loop: if the loop, entered with the given
`traversed` part already consumed, finishes successfully on a nonempty
remainder, the value is readable at the full path. -/
theorem setGo_get :
    ∀ (rest : List PyVal) (obj : PyVal) (traversed : List PyVal) (v obj2 : PyVal),
      rest ≠ [] → setGo obj traversed rest v = .ok obj2 →
      get_by_path obj2 (traversed ++ rest) = .ok v := by
  intro rest
  induction rest with
  | nil => intro _ _ _ _ h; exact absurd rfl h
  | cons part rest2 ih =>
      intro obj traversed v obj2 _ h
      simp only [setGo] at h
      cases hb : get_by_path obj traversed with
      | error e => simp [hb] at h
      | ok branch =>
          simp only [hb] at h
          cases hstep : setStep obj branch traversed part with
          | error e => simp [hstep] at h
          | ok obj1 =>
              simp only [hstep] at h
              cases rest2 with
              | nil => simpa using updateAt_get h
              | cons r rs =>
                  have := ih obj1 (traversed ++ [part]) v obj2 (by simp) h
                  simpa using this

/-- C4: set-then-get round trip.  A "valid path" is formalized as a nonempty
path on which `set_by_path` succeeds (empty paths set nothing, and paths on
which `set_by_path` raises set nothing reliably). -/
theorem set_by_path_get_by_path {obj : PyVal} {p : List PyVal} {v obj2 : PyVal}
    (hne : p ≠ []) (h : set_by_path obj p v = .ok obj2) :
    get_by_path obj2 p = .ok v := by
  have := setGo_get p obj [] v obj2 hne h
  simpa using this

/-- Witness for C4 at a concrete input: setting `{}` at path `["a", "b"]` to
`1` makes the value readable back. -/
theorem set_by_path_get_by_path_witness :
    ([PyVal.vStr "a", PyVal.vStr "b"] ≠ ([] : List PyVal))
    ∧ set_by_path (.vDict []) [.vStr "a", .vStr "b"] (.vInt 1)
        = .ok (.vDict [(.vStr "a", .vDict [(.vStr "b", .vInt 1)])])
    ∧ get_by_path (.vDict [(.vStr "a", .vDict [(.vStr "b", .vInt 1)])]) [.vStr "a", .vStr "b"]
        = .ok (.vInt 1) := by
  have hset : set_by_path (.vDict []) [.vStr "a", .vStr "b"] (.vInt 1)
      = .ok (.vDict [(.vStr "a", .vDict [(.vStr "b", .vInt 1)])]) := by
    simp [set_by_path, setGo, setStep, get_by_path, pyGetItem, pyDictGet, hashable, pyFind,
      updateAt, pySetItem, dictAssign, pyEq]
  exact ⟨by simp, hset, set_by_path_get_by_path (by simp) hset⟩

/-- C9: `get_by_path` does not stop at string leaves: a second path step
indexes into the string and returns its `i`-th character (a one-character
string), exactly as `reduce(operator.getitem, ...)` does. -/
theorem get_by_path_string_index {es : List (PyVal × PyVal)} {k : PyVal} {s : String}
    {i : Int} (hk : pyGetItem (.vDict es) k = .ok (.vStr s))
    (h0 : 0 ≤ i) (hl : i < (s.length : Int)) :
    get_by_path (.vDict es) [k, .vInt i] = .ok (.vStr (String.mk [s.data.getD i.toNat ' '])) := by
  have hidx : listIdx s.length i = some i.toNat := by
    have hnorm : idxNorm s.length i = i := by
      simp only [idxNorm]
      have : ¬ i < 0 := by omega
      simp [this]
    simp only [listIdx, hnorm]
    rw [if_pos ⟨h0, hl⟩]
  simp only [get_by_path, hk]
  simp only [get_by_path, pyGetItem, pyStrGet, hidx]

/-- Witness for C9: `{"k": "ab"}["k"][1]` is `"b"`. -/
theorem get_by_path_string_index_witness :
    pyGetItem (.vDict [(.vStr "k", .vStr "ab")]) (.vStr "k") = .ok (.vStr "ab")
    ∧ get_by_path (.vDict [(.vStr "k", .vStr "ab")]) [.vStr "k", .vInt 1]
        = .ok (.vStr (String.mk ["ab".data.getD (1 : Int).toNat ' '])) := by
  have hk : pyGetItem (.vDict [(.vStr "k", .vStr "ab")]) (.vStr "k") = .ok (.vStr "ab") := by
    simp [pyGetItem, pyDictGet, hashable, pyFind, pyEq]
  exact ⟨hk, get_by_path_string_index hk (by decide) (by decide)⟩

/-! ### Well-formedness

Values reachable in a real Python run: every dict has hashable keys (else its
construction would have raised) that are pairwise distinct under `==` (a dict
cannot hold two equal keys). -/

/-- No key of `es` is Python-equal to `k`. -/
def keyAbsent (es : List (PyVal × PyVal)) (k : PyVal) : Bool :=
  es.all (fun e => !(pyEq e.1 k))

/-- Dict keys are hashable and pairwise distinct under Python `==`. -/
def keysOk : List (PyVal × PyVal) → Bool
  | [] => true
  | (k, _) :: es2 => hashable k && keyAbsent es2 k && keysOk es2

mutual
/-- Well-formed value: every dict node has hashable, pairwise-distinct keys. -/
def wf (a : PyVal) : Bool :=
  match a with
  | .vInt _ => true
  | .vStr _ => true
  | .vList xs => wfL xs
  | .vDict es => keysOk es && wfE es
def wfL (xs : List PyVal) : Bool :=
  match xs with
  | [] => true
  | x :: xs2 => wf x && wfL xs2
def wfE (es : List (PyVal × PyVal)) : Bool :=
  match es with
  | [] => true
  | e :: es2 => wf e.2 && wfE es2
end

theorem hashable_pyEq_eq {a b : PyVal} (ha : hashable a = true) (h : pyEq a b = true) :
    a = b := by
  cases a <;> cases b <;> simp_all [hashable, pyEq]

theorem keyAbsent_pyFind {es : List (PyVal × PyVal)} {k : PyVal}
    (h : keyAbsent es k = true) : pyFind es k = none := by
  induction es with
  | nil => rfl
  | cons e es2 ih =>
      simp only [keyAbsent, List.all_cons, Bool.and_eq_true] at h
      obtain ⟨h1, h2⟩ := h
      obtain ⟨k2, v2⟩ := e
      simp only [Bool.not_eq_true'] at h1
      simp only [pyFind, h1]
      exact ih h2

theorem wfL_mem {xs : List PyVal} {x : PyVal} (h : wfL xs = true) (hm : x ∈ xs) :
    wf x = true := by
  induction xs with
  | nil => cases hm
  | cons y ys ih =>
      rw [wfL] at h
      simp only [Bool.and_eq_true] at h
      rcases hm with _ | hm
      · exact h.1
      · exact ih h.2 (by assumption)

theorem wfE_mem {es : List (PyVal × PyVal)} {e : PyVal × PyVal} (h : wfE es = true)
    (hm : e ∈ es) : wf e.2 = true := by
  induction es with
  | nil => cases hm
  | cons f fs ih =>
      rw [wfE] at h
      simp only [Bool.and_eq_true] at h
      rcases hm with _ | hm
      · exact h.1
      · exact ih h.2 (by assumption)

theorem pyFind_mem {es : List (PyVal × PyVal)} {k v : PyVal} (h : pyFind es k = some v) :
    ∃ k2, (k2, v) ∈ es ∧ pyEq k2 k = true := by
  induction es with
  | nil => cases h
  | cons e es2 ih =>
      obtain ⟨k2, v2⟩ := e
      by_cases hq : pyEq k2 k = true
      · simp only [pyFind, hq, if_true] at h
        injection h with h
        subst h
        exact ⟨k2, List.mem_cons_self .., hq⟩
      · simp only [pyFind, hq, if_false] at h
        obtain ⟨k3, hm, hq3⟩ := ih h
        exact ⟨k3, List.mem_cons_of_mem _ hm, hq3⟩

/-- Container reads preserve well-formedness. -/
theorem wf_pyGetItem {obj q child : PyVal} (hwf : wf obj = true)
    (h : pyGetItem obj q = .ok child) : wf child = true := by
  cases obj with
  | vInt n => simp [pyGetItem] at h
  | vStr s =>
      cases q with
      | vInt i =>
          simp only [pyGetItem, pyStrGet] at h
          cases hj : listIdx s.length i with
          | none => rw [hj] at h; cases h
          | some j =>
              rw [hj] at h
              injection h with h
              subst h
              rfl
      | vStr _ => cases h
      | vList _ => cases h
      | vDict _ => cases h
  | vList xs =>
      cases q with
      | vInt i =>
          simp only [pyGetItem, pyListGet] at h
          cases hj : listIdx xs.length i with
          | none => rw [hj] at h; cases h
          | some j =>
              rw [hj] at h
              injection h with h
              subst h
              rw [wf] at hwf
              rw [List.getD_eq_getElem _ _ (listIdx_lt hj)]
              exact wfL_mem hwf (List.getElem_mem _)
      | vStr _ => cases h
      | vList _ => cases h
      | vDict _ => cases h
  | vDict es =>
      simp only [pyGetItem, pyDictGet] at h
      by_cases hk : hashable q = true
      · rw [if_pos hk] at h
        cases hf : pyFind es q with
        | none => rw [hf] at h; cases h
        | some v =>
            rw [hf] at h
            injection h with h
            subst h
            obtain ⟨k2, hm, _⟩ := pyFind_mem hf
            rw [wf] at hwf
            simp only [Bool.and_eq_true] at hwf
            exact wfE_mem hwf.2 hm
      · rw [if_neg hk] at h
        cases h

/-! ### C3: delete followed by get -/

theorem dictRemove_keysOk {es : List (PyVal × PyVal)} {k : PyVal}
    {es2 : List (PyVal × PyVal)} (hok : keysOk es = true)
    (h : dictRemove es k = some es2) : pyFind es2 k = none := by
  induction es generalizing es2 with
  | nil => cases h
  | cons e es3 ih =>
      obtain ⟨k2, v2⟩ := e
      rw [keysOk] at hok
      simp only [Bool.and_eq_true] at hok
      obtain ⟨⟨hk2, habs⟩, hok3⟩ := hok
      by_cases hq : pyEq k2 k = true
      · simp only [dictRemove, hq, if_true] at h
        injection h with h
        subst h
        have hkk : k2 = k := hashable_pyEq_eq hk2 hq
        subst hkk
        exact keyAbsent_pyFind habs
      · simp only [dictRemove, hq, if_false] at h
        cases hr : dictRemove es3 k with
        | none => rw [hr] at h; cases h
        | some es4 =>
            rw [hr] at h
            injection h with h
            subst h
            simp only [pyFind, hq, if_false]
            exact ih hok3 hr

/-- After a successful `del get_by_path(obj, pre)[k]` where the container at
`pre` is a dict, reading `pre + [k]` fails with KeyError. -/
theorem delAt_get {pre : List PyVal} :
    ∀ {obj k obj2 : PyVal} {es : List (PyVal × PyVal)}, wf obj = true →
      get_by_path obj pre = .ok (.vDict es) → delAt obj pre k = .ok obj2 →
      get_by_path obj2 (pre ++ [k]) = .error .keyError := by
  induction pre with
  | nil =>
      intro obj k obj2 es hwf hget hdel
      simp only [get_by_path] at hget
      injection hget with hget
      subst hget
      simp only [delAt, pyDelItem] at hdel
      by_cases hk : hashable k = true
      · rw [if_pos hk] at hdel
        cases hr : dictRemove es k with
        | none => rw [hr] at hdel; cases hdel
        | some es2 =>
            rw [hr] at hdel
            injection hdel with hdel
            subst hdel
            rw [wf] at hwf
            simp only [Bool.and_eq_true] at hwf
            simp only [List.nil_append, get_by_path, pyGetItem, pyDictGet, hk, if_true,
              dictRemove_keysOk hwf.1 hr]
      · rw [if_neg hk] at hdel
        cases hdel
  | cons q qs ih =>
      intro obj k obj2 es hwf hget hdel
      simp only [delAt] at hdel
      cases hc : pyGetItem obj q with
      | error e => simp [hc] at hdel
      | ok child =>
          simp only [hc] at hdel
          cases hd : delAt child qs k with
          | error e => simp [hd] at hdel
          | ok child2 =>
              simp only [hd] at hdel
              have hgc : get_by_path child qs = .ok (.vDict es) := by
                simp only [get_by_path, hc] at hget
                exact hget
              simp only [List.cons_append, get_by_path, pySetItem_get hdel]
              exact ih (wf_pyGetItem hwf hc) hgc hd

/-- C3 (amended): when the container holding the final key is a dict, a
successful `del_by_path` makes a subsequent `get_by_path` of the same path
fail with KeyError.  (For sequences the claim is false: see
`del_by_path_stale_read`.) -/
theorem del_by_path_get_keyError {c : PyVal} {p : List PyVal} {c2 : PyVal}
    {es : List (PyVal × PyVal)} (hwf : wf c = true)
    (hdict : get_by_path c p.dropLast = .ok (.vDict es))
    (hdel : del_by_path c p = .ok c2) :
    get_by_path c2 p = .error .keyError := by
  cases hp : p.getLast? with
  | none => simp only [del_by_path, hp] at hdel; cases hdel
  | some k =>
      simp only [del_by_path, hp] at hdel
      have hne : p ≠ [] := by
        intro h; subst h; simp at hp
      have hsplit : p.dropLast ++ [k] = p := by
        have := List.dropLast_append_getLast hne
        rwa [List.getLast_eq_iff_getLast?_eq_some hne |>.mpr hp] at this
      calc get_by_path c2 p = get_by_path c2 (p.dropLast ++ [k]) := by rw [hsplit]
        _ = .error .keyError := delAt_get hwf hdict hdel

/-- Witness for C3 (amended): deleting key `"a"` from `{"a": 1}` makes the
read fail with KeyError. -/
theorem del_by_path_get_keyError_witness :
    wf (.vDict [(.vStr "a", .vInt 1)]) = true
    ∧ get_by_path (.vDict [(.vStr "a", .vInt 1)]) ([.vStr "a"] : List PyVal).dropLast
        = .ok (.vDict [(.vStr "a", .vInt 1)])
    ∧ del_by_path (.vDict [(.vStr "a", .vInt 1)]) [.vStr "a"] = .ok (.vDict [])
    ∧ get_by_path (.vDict []) [.vStr "a"] = .error .keyError := by
  have h1 : wf (.vDict [(.vStr "a", .vInt 1)]) = true := by
    simp [wf, wfE, keysOk, keyAbsent, hashable]
  have h2 : get_by_path (.vDict [(.vStr "a", .vInt 1)]) ([.vStr "a"] : List PyVal).dropLast
      = .ok (.vDict [(.vStr "a", .vInt 1)]) := rfl
  have h3 : del_by_path (.vDict [(.vStr "a", .vInt 1)]) [.vStr "a"] = .ok (.vDict []) := by
    simp [del_by_path, delAt, pyDelItem, hashable, dictRemove, pyEq]
  exact ⟨h1, h2, h3, del_by_path_get_keyError h1 h2 h3⟩

/-- Counterexample to C3 as stated: deleting index 0 from the list
`["a", "b"]` succeeds, and the subsequent `get_by_path` at the very same path
also succeeds, returning the shifted element `"b"` — a stale read, not a
KeyError/IndexError. -/
theorem del_by_path_stale_read :
    del_by_path (.vList [.vStr "a", .vStr "b"]) [.vInt 0] = .ok (.vList [.vStr "b"])
    ∧ get_by_path (.vList [.vStr "b"]) [.vInt 0] = .ok (.vStr "b") := by
  constructor
  · simp [del_by_path, delAt, pyDelItem, listIdx, idxNorm]
  · simp [get_by_path, pyGetItem, pyListGet, listIdx, idxNorm]

/-! ### C6: auto-vivification creates nested mappings -/

/-- The nested mapping `{k1: {k2: ... {kn: v}}}` along the keys `ks`. -/
def dictChain (ks : List PyVal) (v : PyVal) : PyVal :=
  ks.foldr (fun k acc => .vDict [(k, acc)]) v

theorem dictChain_append_one (ks : List PyVal) (k X : PyVal) :
    dictChain (ks ++ [k]) X = dictChain ks (.vDict [(k, X)]) := by
  simp [dictChain]

theorem get_by_path_dictChain {ks : List PyVal} (X : PyVal)
    (h : ks.all hashable = true) : get_by_path (dictChain ks X) ks = .ok X := by
  induction ks with
  | nil => rfl
  | cons k ks2 ih =>
      simp only [List.all_cons, Bool.and_eq_true] at h
      simp only [dictChain, List.foldr_cons, get_by_path, pyGetItem, pyDictGet, h.1, if_true,
        pyFind, pyEq_refl_hashable h.1]
      exact ih h.2

theorem updateAt_dictChain {ks : List PyVal} {X k2 v2 X2 : PyVal}
    (h : ks.all hashable = true) (hset : pySetItem X k2 v2 = .ok X2) :
    updateAt (dictChain ks X) ks k2 v2 = .ok (dictChain ks X2) := by
  induction ks with
  | nil => simpa [dictChain, updateAt] using hset
  | cons k ks2 ih =>
      simp only [List.all_cons, Bool.and_eq_true] at h
      simp only [dictChain, List.foldr_cons, updateAt, pyGetItem, pyDictGet, h.1, if_true,
        pyFind, pyEq_refl_hashable h.1]
      have := ih h.2
      simp only [dictChain] at this
      simp only [this, pySetItem, h.1, if_true, dictAssign, pyEq_refl_hashable h.1]

/-- The `set_by_path` loop on a chain of fresh keys: starting from the empty
dict at the end of an all-dict spine, every probe raises KeyError, so an
empty dict is created at every step, and the final key receives the value. -/
theorem setGo_dictChain :
    ∀ (rest : List PyVal) (pre : List PyVal) (v : PyVal),
      pre.all hashable = true → rest.all hashable = true → rest ≠ [] →
      setGo (dictChain pre (.vDict [])) pre rest v = .ok (dictChain pre (dictChain rest v)) := by
  intro rest
  induction rest with
  | nil => intro _ _ _ _ h; exact absurd rfl h
  | cons part rest2 ih =>
      intro pre v hpre hrest _
      simp only [List.all_cons, Bool.and_eq_true] at hrest
      obtain ⟨hpart, hrest2⟩ := hrest
      have hprobe : pyGetItem (.vDict []) part = .error .keyError := by
        simp [pyGetItem, pyDictGet, hpart, pyFind]
      have hmk : pySetItem (.vDict []) part (.vDict []) = .ok (.vDict [(part, .vDict [])]) := by
        simp [pySetItem, hpart, dictAssign]
      cases rest2 with
      | nil =>
          simp only [setGo, get_by_path_dictChain _ hpre, setStep, hprobe,
            updateAt_dictChain hpre hmk]
          have hfin : pySetItem (.vDict [(part, .vDict [])]) part v
              = .ok (.vDict [(part, v)]) := by
            simp [pySetItem, hpart, dictAssign, pyEq_refl_hashable hpart]
          simpa [dictChain] using updateAt_dictChain hpre hfin
      | cons r rs =>
          simp only [setGo, get_by_path_dictChain _ hpre, setStep, hprobe,
            updateAt_dictChain hpre hmk]
          have hpre2 : (pre ++ [part]).all hashable = true := by
            simp [List.all_append, hpre, hpart]
          have hrw : dictChain pre (.vDict [(part, .vDict [])])
              = dictChain (pre ++ [part]) (.vDict []) := by
            rw [dictChain_append_one]
          show setGo (dictChain pre (.vDict [(part, .vDict [])])) (pre ++ [part]) (r :: rs) v
              = Except.ok (dictChain pre (dictChain (part :: r :: rs) v))
          rw [hrw, ih (pre ++ [part]) v hpre2 hrest2 (by simp), dictChain_append_one]
          simp [dictChain]

/-- C6: setting along a path of (hashable) keys none of which exists yet
auto-creates an empty mapping at every missing position: starting from `{}`,
`set_by_path` succeeds and produces the nested-mapping chain ending in the
value.  The keys are arbitrary hashable values — in particular integer keys
still produce mappings, never sequences. -/
theorem set_by_path_autovivify {ks : List PyVal} {v : PyVal}
    (hne : ks ≠ []) (hk : ks.all hashable = true) :
    set_by_path (.vDict []) ks v = .ok (dictChain ks v) := by
  have := setGo_dictChain ks [] v rfl hk hne
  simpa [set_by_path, dictChain] using this

/-- Witness for C6: the spec's own example `set_by_path({}, ["a","b"], 1)`
produces `{"a": {"b": 1}}`, and an integer-keyed path produces nested
mappings as well. -/
theorem set_by_path_autovivify_witness :
    ([PyVal.vStr "a", PyVal.vStr "b"].all hashable = true
      ∧ set_by_path (.vDict []) [.vStr "a", .vStr "b"] (.vInt 1)
          = .ok (.vDict [(.vStr "a", .vDict [(.vStr "b", .vInt 1)])]))
    ∧ ([PyVal.vInt 0, PyVal.vInt 1].all hashable = true
      ∧ set_by_path (.vDict []) [.vInt 0, .vInt 1] (.vInt 10)
          = .ok (.vDict [(.vInt 0, .vDict [(.vInt 1, .vInt 10)])])) := by
  constructor
  · exact ⟨rfl, set_by_path_autovivify (by simp) rfl⟩
  · exact ⟨rfl, set_by_path_autovivify (by simp) rfl⟩

/-! ### Python `==` is an equivalence on well-formed values

Reflexivity and transitivity of `pyEq` (restricted to well-formed values),
needed to reason about deduplication by Python equality. -/

theorem pyval_size_ind (P : PyVal → Prop)
    (h : ∀ a, (∀ b, sizeOf b < sizeOf a → P b) → P a) : ∀ a, P a := by
  have key : ∀ n (a : PyVal), sizeOf a < n → P a := by
    intro n
    induction n with
    | zero => intro a ha; omega
    | succ m ih => intro a _; exact h a (fun b hb => ih b (by omega))
  exact fun a => key (sizeOf a + 1) a (by omega)

theorem sizeOf_lt_vList {x : PyVal} {xs : List PyVal} (h : x ∈ xs) :
    sizeOf x < sizeOf (PyVal.vList xs) := by
  have := List.sizeOf_lt_of_mem h
  simp only [PyVal.vList.sizeOf_spec]
  omega

theorem sizeOf_lt_vDict {k v : PyVal} {es : List (PyVal × PyVal)} (h : (k, v) ∈ es) :
    sizeOf v < sizeOf (PyVal.vDict es) := by
  have h1 := List.sizeOf_lt_of_mem h
  have h2 : sizeOf (k, v) = 1 + sizeOf k + sizeOf v := rfl
  simp only [PyVal.vDict.sizeOf_spec]
  omega

theorem pyEq_eq_of_hashable_right {b k : PyVal} (hk : hashable k = true)
    (h : pyEq b k = true) : b = k := by
  cases b <;> cases k <;> simp_all [hashable, pyEq]

theorem pyLookupEq_eq_find (fs : List (PyVal × PyVal)) (k v : PyVal) :
    pyLookupEq fs k v
      = (match pyFind fs k with | some v2 => pyEq v v2 | none => false) := by
  induction fs with
  | nil => simp [pyLookupEq, pyFind]
  | cons e fs2 ih =>
      obtain ⟨k2, v2⟩ := e
      rw [pyLookupEq, pyFind]
      by_cases h : pyEq k2 k = true <;> simp [h, ih]

theorem keysOk_mem_hashable {es : List (PyVal × PyVal)} {k v : PyVal}
    (hok : keysOk es = true) (hm : (k, v) ∈ es) : hashable k = true := by
  induction es with
  | nil => cases hm
  | cons e es2 ih =>
      obtain ⟨k2, v2⟩ := e
      rw [keysOk] at hok
      simp only [Bool.and_eq_true] at hok
      rcases hm with _ | hm
      · exact hok.1.1
      · exact ih hok.2 (by assumption)

/-- In a dict with pairwise-distinct keys, looking up the key of a present
entry finds exactly that entry's value. -/
theorem pyFind_self {es : List (PyVal × PyVal)} {k v : PyVal}
    (hok : keysOk es = true) (hm : (k, v) ∈ es) : pyFind es k = some v := by
  induction es with
  | nil => cases hm
  | cons e es2 ih =>
      obtain ⟨k2, v2⟩ := e
      rw [keysOk] at hok
      simp only [Bool.and_eq_true] at hok
      obtain ⟨⟨hk2, habs⟩, hok2⟩ := hok
      cases hm with
      | head => simp [pyFind, pyEq_refl_hashable hk2]
      | tail _ hm =>
          by_cases hq : pyEq k2 k = true
          · exfalso
            have hkk : k2 = k := hashable_pyEq_eq hk2 hq
            subst hkk
            simp only [keyAbsent, List.all_eq_true] at habs
            have habs2 := habs (k2, v) hm
            rw [pyEq_refl_hashable hk2] at habs2
            simp at habs2
          · simp only [pyFind, hq, if_false]
            exact ih hok2 hm

theorem pyEqIn_of_forall {es fs : List (PyVal × PyVal)}
    (h : ∀ e ∈ es, pyLookupEq fs e.1 e.2 = true) : pyEqIn es fs = true := by
  induction es with
  | nil => rw [pyEqIn]
  | cons e es2 ih =>
      obtain ⟨k, v⟩ := e
      rw [pyEqIn]
      simp only [Bool.and_eq_true]
      exact ⟨h (k, v) (List.mem_cons_self ..), ih (fun e he => h e (List.mem_cons_of_mem _ he))⟩

theorem pyEqIn_mem {es fs : List (PyVal × PyVal)} {e : PyVal × PyVal}
    (h : pyEqIn es fs = true) (hm : e ∈ es) : pyLookupEq fs e.1 e.2 = true := by
  induction es with
  | nil => cases hm
  | cons f es2 ih =>
      obtain ⟨k, v⟩ := f
      rw [pyEqIn] at h
      simp only [Bool.and_eq_true] at h
      rcases hm with _ | hm
      · exact h.1
      · exact ih h.2 (by assumption)

theorem pyEqL_refl_aux {ys : List PyVal} (h : ∀ y ∈ ys, pyEq y y = true) :
    pyEqL ys ys = true := by
  induction ys with
  | nil => rw [pyEqL]
  | cons y ys2 ih =>
      rw [pyEqL]
      simp only [Bool.and_eq_true]
      exact ⟨h y (List.mem_cons_self ..), ih (fun z hz => h z (List.mem_cons_of_mem _ hz))⟩

/-- Python `==` is reflexive on well-formed values.  (Not reflexive in
general: a dict holding two `==`-equal keys — impossible in Python — would
compare unequal to itself.) -/
theorem pyEq_refl : ∀ a : PyVal, wf a = true → pyEq a a = true := by
  apply pyval_size_ind (fun a => wf a = true → pyEq a a = true)
  intro a ih hwf
  cases a with
  | vInt n => simp [pyEq]
  | vStr s => simp [pyEq]
  | vList xs =>
      rw [pyEq]
      apply pyEqL_refl_aux
      intro y hy
      rw [wf] at hwf
      exact ih y (sizeOf_lt_vList hy) (wfL_mem hwf hy)
  | vDict es =>
      rw [wf] at hwf
      simp only [Bool.and_eq_true] at hwf
      obtain ⟨hok, hvals⟩ := hwf
      rw [pyEq]
      simp only [Bool.and_eq_true, Nat.beq_eq]
      refine ⟨trivial, pyEqIn_of_forall ?_⟩
      intro e he
      obtain ⟨k, v⟩ := e
      rw [pyLookupEq_eq_find, pyFind_self hok he]
      exact ih v (sizeOf_lt_vDict he) (wfE_mem hvals he)

theorem pyEqL_trans_aux :
    ∀ (xs ys zs : List PyVal),
      (∀ x ∈ xs, ∀ b c : PyVal, pyEq x b = true → pyEq b c = true → pyEq x c = true) →
      pyEqL xs ys = true → pyEqL ys zs = true → pyEqL xs zs = true := by
  intro xs
  induction xs with
  | nil =>
      intro ys zs _ h1 h2
      cases ys with
      | nil => cases zs with
        | nil => rw [pyEqL]
        | cons z zs2 => simp [pyEqL] at h2
      | cons y ys2 => simp [pyEqL] at h1
  | cons x xs2 ih =>
      intro ys zs htr h1 h2
      cases ys with
      | nil => simp [pyEqL] at h1
      | cons y ys2 =>
          cases zs with
          | nil => simp [pyEqL] at h2
          | cons z zs2 =>
              rw [pyEqL] at h1 h2 ⊢
              simp only [Bool.and_eq_true] at h1 h2 ⊢
              refine ⟨htr x (List.mem_cons_self ..) y z h1.1 h2.1, ?_⟩
              exact ih ys2 zs2 (fun u hu => htr u (List.mem_cons_of_mem _ hu)) h1.2 h2.2

/-- Python `==` is transitive when the left value is well-formed. -/
theorem pyEq_trans :
    ∀ a : PyVal, ∀ {b c : PyVal}, wf a = true →
      pyEq a b = true → pyEq b c = true → pyEq a c = true := by
  apply pyval_size_ind
    (fun a => ∀ {b c : PyVal}, wf a = true → pyEq a b = true → pyEq b c = true → pyEq a c = true)
  intro a ih b c hwf h1 h2
  cases a with
  | vInt n =>
      cases b with
      | vInt m =>
          cases c with
          | vInt p =>
              simp only [pyEq, beq_iff_eq] at h1 h2 ⊢
              omega
          | vStr _ => simp [pyEq] at h2
          | vList _ => simp [pyEq] at h2
          | vDict _ => simp [pyEq] at h2
      | vStr _ => simp [pyEq] at h1
      | vList _ => simp [pyEq] at h1
      | vDict _ => simp [pyEq] at h1
  | vStr t =>
      cases b with
      | vStr u =>
          cases c with
          | vStr w =>
              simp only [pyEq, beq_iff_eq] at h1 h2 ⊢
              exact h1.trans h2
          | vInt _ => simp [pyEq] at h2
          | vList _ => simp [pyEq] at h2
          | vDict _ => simp [pyEq] at h2
      | vInt _ => simp [pyEq] at h1
      | vList _ => simp [pyEq] at h1
      | vDict _ => simp [pyEq] at h1
  | vList xs =>
      cases b with
      | vList ys =>
          cases c with
          | vList zs =>
              rw [pyEq] at h1 h2 ⊢
              rw [wf] at hwf
              refine pyEqL_trans_aux xs ys zs ?_ h1 h2
              intro x hx b2 c2 hb hc
              exact ih x (sizeOf_lt_vList hx) (wfL_mem hwf hx) hb hc
          | vInt _ => simp [pyEq] at h2
          | vStr _ => simp [pyEq] at h2
          | vDict _ => simp [pyEq] at h2
      | vInt _ => simp [pyEq] at h1
      | vStr _ => simp [pyEq] at h1
      | vDict _ => simp [pyEq] at h1
  | vDict es =>
      cases b with
      | vDict fs =>
          cases c with
          | vDict gs =>
              rw [wf] at hwf
              simp only [Bool.and_eq_true] at hwf
              obtain ⟨hok, hvals⟩ := hwf
              rw [pyEq] at h1 h2 ⊢
              simp only [Bool.and_eq_true, Nat.beq_eq] at h1 h2 ⊢
              obtain ⟨hlen1, hin1⟩ := h1
              obtain ⟨hlen2, hin2⟩ := h2
              refine ⟨by omega, pyEqIn_of_forall ?_⟩
              intro e he
              obtain ⟨k, v⟩ := e
              have hk : hashable k = true := keysOk_mem_hashable hok he
              have hl1 : pyLookupEq fs k v = true := pyEqIn_mem hin1 he
              rw [pyLookupEq_eq_find] at hl1
              cases hf : pyFind fs k with
              | none => rw [hf] at hl1; cases hl1
              | some v2 =>
                  rw [hf] at hl1
                  obtain ⟨k1, hmem1, hqk1⟩ := pyFind_mem hf
                  have hk1 : k1 = k := pyEq_eq_of_hashable_right hk hqk1
                  subst hk1
                  have hl2 : pyLookupEq gs k1 v2 = true := pyEqIn_mem hin2 hmem1
                  rw [pyLookupEq_eq_find] at hl2
                  cases hg : pyFind gs k1 with
                  | none => rw [hg] at hl2; cases hl2
                  | some v3 =>
                      rw [hg] at hl2
                      rw [pyLookupEq_eq_find, hg]
                      exact ih v (sizeOf_lt_vDict he) (wfE_mem hvals he) hl1 hl2
          | vInt _ => simp [pyEq] at h2
          | vStr _ => simp [pyEq] at h2
          | vList _ => simp [pyEq] at h2
      | vInt _ => simp [pyEq] at h1
      | vStr _ => simp [pyEq] at h1
      | vList _ => simp [pyEq] at h1

/-! ### Deduplication (`deduped_items`) -/

/-- The unhashable fallback of `deduped_items`:
`[i for n, i in enumerate(items) if i not in items[n + 1:]]`.
(CPython list membership `i in L` compares each element of `L` on the left:
`any(j == i for j in L)`.) -/
def dedupFallback (items : List PyVal) : List PyVal :=
  (items.enum.filter
    (fun ni => !((items.drop (ni.1 + 1)).any (fun j => pyEq j ni.2)))).map Prod.snd

/-- Model of the fast path `list(set(items))` (only reached when every item
is hashable): one representative per equality class; CPython's set iteration
order is hash-dependent, modelled here as first-occurrence order.  No claim
depends on this branch's order. -/
def hashDedup (items : List PyVal) : List PyVal :=
  match items with
  | [] => []
  | i :: rest => i :: hashDedup (rest.filter (fun j => !(pyEq j i)))
termination_by items.length
decreasing_by
  simp only [List.length_cons]
  exact Nat.lt_succ_of_le (List.length_filter_le _ _)

/-- `deduped_items(items)`: `list(set(items))` raises TypeError iff some item
is unhashable; the `except TypeError` then runs the quadratic fallback. -/
def deduped_items (items : List PyVal) : List PyVal :=
  if items.all hashable then hashDedup items else dedupFallback items

/-- Spec-side characterization (the amended C5): an element is kept iff no
later element of the input is Python-equal to it — i.e. exactly the last-seen
occurrence of each equality class survives — and kept elements stay in input
order. -/
def lastKeptRec : List PyVal → List PyVal
  | [] => []
  | i :: rest =>
      if rest.any (fun j => pyEq j i) then lastKeptRec rest else i :: lastKeptRec rest

theorem dedupFallback_general :
    ∀ (items pre : List PyVal),
      ((List.enumFrom pre.length items).filter
        (fun ni => !(((pre ++ items).drop (ni.1 + 1)).any (fun j => pyEq j ni.2)))).map Prod.snd
      = lastKeptRec items := by
  intro items
  induction items with
  | nil => intro pre; rfl
  | cons i rest ih =>
      intro pre
      have hdrop : (pre ++ i :: rest).drop (pre.length + 1) = rest := by
        have : pre ++ i :: rest = (pre ++ [i]) ++ rest := by simp
        rw [this]
        have hlen : pre.length + 1 = (pre ++ [i]).length := by simp
        rw [hlen, List.drop_left]
      have htail :
          ((List.enumFrom (pre.length + 1) rest).filter
            (fun ni => !(((pre ++ i :: rest).drop (ni.1 + 1)).any (fun j => pyEq j ni.2)))).map
              Prod.snd
          = lastKeptRec rest := by
        have hlist : pre ++ i :: rest = (pre ++ [i]) ++ rest := by simp
        have hlen : pre.length + 1 = (pre ++ [i]).length := by simp
        rw [hlist, hlen]
        exact ih (pre ++ [i])
      rw [List.enumFrom_cons, List.filter_cons]
      by_cases hc : (rest.any (fun j => pyEq j i)) = true
      · simp only [hdrop, hc, Bool.not_true, Bool.false_eq_true, if_false]
        rw [lastKeptRec, if_pos hc]
        exact htail
      · simp only [hdrop, Bool.not_eq_true'] at hc
        simp only [hdrop, hc, Bool.not_false, if_true, List.map_cons]
        rw [lastKeptRec, if_neg (by simp [hc])]
        rw [htail]

/-- The source comprehension equals the last-occurrence characterization. -/
theorem dedupFallback_eq_lastKeptRec (items : List PyVal) :
    dedupFallback items = lastKeptRec items := by
  have := dedupFallback_general items []
  simpa [dedupFallback, List.enum] using this

theorem lastKeptRec_sublist (items : List PyVal) : List.Sublist (lastKeptRec items) items := by
  induction items with
  | nil => simp [lastKeptRec]
  | cons i rest ih =>
      rw [lastKeptRec]
      by_cases hc : (rest.any (fun j => pyEq j i)) = true
      · rw [if_pos hc]
        exact ih.cons i
      · rw [if_neg hc]
        exact ih.cons₂ i

/-- C5 (amended): on the unhashable-fallback path, `deduped_items` keeps, for
each equality class, exactly its last-seen occurrence (an element survives
iff no later element is Python-equal to it), and the output is a subsequence
of the input (kept occurrences in left-to-right input order). -/
theorem deduped_items_fallback_lastKept {items : List PyVal}
    (h : items.all hashable = false) :
    deduped_items items = lastKeptRec items
      ∧ List.Sublist (deduped_items items) items := by
  have heq : deduped_items items = lastKeptRec items := by
    rw [deduped_items, if_neg (by simp [h]), dedupFallback_eq_lastKeptRec]
  exact ⟨heq, heq ▸ lastKeptRec_sublist items⟩

/-- Witness for C5 (amended) at a concrete input that takes the fallback. -/
theorem deduped_items_fallback_lastKept_witness :
    ([PyVal.vDict [], PyVal.vInt 1, PyVal.vDict []].all hashable = false)
    ∧ deduped_items [.vDict [], .vInt 1, .vDict []]
        = lastKeptRec [.vDict [], .vInt 1, .vDict []]
    ∧ List.Sublist (deduped_items [.vDict [], .vInt 1, .vDict []])
        [.vDict [], .vInt 1, .vDict []] := by
  have h : ([PyVal.vDict [], PyVal.vInt 1, PyVal.vDict []].all hashable = false) := rfl
  have := deduped_items_fallback_lastKept h
  exact ⟨h, this.1, this.2⟩

/-- Counterexample to C5 as stated: on `[{}, 1, {}]` the fallback keeps the
last `{}`, not the first-seen one, so the output is `[1, {}]` while the
first-seen rule would give `[{}, 1]`. -/
theorem deduped_items_not_first_seen :
    deduped_items [.vDict [], .vInt 1, .vDict []] = [.vInt 1, .vDict []]
    ∧ deduped_items [.vDict [], .vInt 1, .vDict []] ≠ [.vDict [], .vInt 1] := by
  have heval : deduped_items [.vDict [], .vInt 1, .vDict []] = [.vInt 1, .vDict []] := by
    rw [(@deduped_items_fallback_lastKept [.vDict [], .vInt 1, .vDict []] rfl).1]
    rw [lastKeptRec, lastKeptRec, lastKeptRec, lastKeptRec]
    norm_num
    simp [pyEq, pyEqIn]
  refine ⟨heval, ?_⟩
  rw [heval]
  simp

/-! ### C7: the fallback is a correct equality-dedup -/

theorem lastKeptRec_subset {items : List PyVal} {y : PyVal}
    (h : y ∈ lastKeptRec items) : y ∈ items :=
  (lastKeptRec_sublist items).subset h

/-- Every input element has a Python-equal representative in the fallback
output. -/
theorem lastKeptRec_complete :
    ∀ (items : List PyVal), (∀ x ∈ items, wf x = true) →
      ∀ x ∈ items, ∃ y ∈ lastKeptRec items, pyEq y x = true := by
  intro items
  induction items with
  | nil => intro _ x hx; cases hx
  | cons i rest ih =>
      intro hwf x hx
      have hwfrest : ∀ z ∈ rest, wf z = true :=
        fun z hz => hwf z (List.mem_cons_of_mem _ hz)
      cases hx with
      | head =>
          by_cases hc : (rest.any (fun j => pyEq j i)) = true
          · simp only [List.any_eq_true] at hc
            obtain ⟨j, hj, hqj⟩ := hc
            obtain ⟨y, hy, hqy⟩ := ih hwfrest j hj
            refine ⟨y, ?_, ?_⟩
            · rw [lastKeptRec, if_pos (by simp only [List.any_eq_true]; exact ⟨j, hj, hqj⟩)]
              exact hy
            · exact pyEq_trans y (hwfrest y (lastKeptRec_subset hy)) hqy hqj
          · refine ⟨i, ?_, pyEq_refl i (hwf i (List.mem_cons_self ..))⟩
            rw [lastKeptRec, if_neg hc]
            exact List.mem_cons_self ..
      | tail _ hx =>
          obtain ⟨y, hy, hqy⟩ := ih hwfrest x hx
          refine ⟨y, ?_, hqy⟩
          rw [lastKeptRec]
          by_cases hc : (rest.any (fun j => pyEq j i)) = true
          · rw [if_pos hc]; exact hy
          · rw [if_neg hc]; exact List.mem_cons_of_mem _ hy

/-- No element of the fallback output is Python-equal to an earlier output
element: every remaining pair compares unequal. -/
theorem lastKeptRec_pairwise (items : List PyVal) :
    List.Pairwise (fun a b => pyEq b a = false) (lastKeptRec items) := by
  induction items with
  | nil => rw [lastKeptRec]; exact List.Pairwise.nil
  | cons i rest ih =>
      rw [lastKeptRec]
      by_cases hc : (rest.any (fun j => pyEq j i)) = true
      · rw [if_pos hc]; exact ih
      · rw [if_neg hc]
        refine List.Pairwise.cons ?_ ih
        intro b hb
        simp only [List.any_eq_true, not_exists, not_and, Bool.not_eq_true] at hc
        exact hc b (lastKeptRec_subset hb)

/-- C7: when some item is unhashable, `deduped_items` does not raise (the
TypeError from `set` is caught and the fallback returns): its output elements
all come from the input, every input element has a Python-equal
representative in the output, and no two output elements are Python-equal. -/
theorem deduped_items_unhashable_ok {items : List PyVal}
    (hun : items.all hashable = false) (hwf : ∀ x ∈ items, wf x = true) :
    (∀ y ∈ deduped_items items, y ∈ items)
    ∧ (∀ x ∈ items, ∃ y ∈ deduped_items items, pyEq y x = true)
    ∧ List.Pairwise (fun a b => pyEq b a = false) (deduped_items items) := by
  have heq : deduped_items items = lastKeptRec items :=
    (deduped_items_fallback_lastKept hun).1
  rw [heq]
  exact ⟨fun y hy => lastKeptRec_subset hy, lastKeptRec_complete items hwf,
    lastKeptRec_pairwise items⟩

/-- Witness for C7 at `[{}, {"a": 1}, {}]` (all unhashable, well-formed). -/
theorem deduped_items_unhashable_ok_witness :
    ([PyVal.vDict [], PyVal.vDict [(.vStr "a", .vInt 1)], PyVal.vDict []].all hashable = false)
    ∧ (∀ x ∈ [PyVal.vDict [], PyVal.vDict [(.vStr "a", .vInt 1)], PyVal.vDict []], wf x = true)
    ∧ (∀ x ∈ [PyVal.vDict [], PyVal.vDict [(.vStr "a", .vInt 1)], PyVal.vDict []],
        ∃ y ∈ deduped_items [.vDict [], .vDict [(.vStr "a", .vInt 1)], .vDict []],
          pyEq y x = true) := by
  have hwf : ∀ x ∈ [PyVal.vDict [], PyVal.vDict [(.vStr "a", .vInt 1)], PyVal.vDict []],
      wf x = true := by
    intro x hx
    simp only [List.mem_cons, List.not_mem_nil, or_false] at hx
    rcases hx with h | h | h <;> subst h <;> rfl
  exact ⟨rfl, hwf,
    (@deduped_items_unhashable_ok [.vDict [], .vDict [(.vStr "a", .vInt 1)], .vDict []]
      rfl hwf).2.1⟩

/-! ### C8: the wrapper's get-with-default -/

/-- Python `iter(path)` materialized: lists iterate their elements, dicts
their keys, strings their characters (as one-character strings); ints are
not iterable. -/
def pyIterElems : PyVal → Option (List PyVal)
  | .vList xs => some xs
  | .vDict es => some (es.map Prod.fst)
  | .vStr s => some (s.data.map (fun c => .vStr (String.mk [c])))
  | .vInt _ => none

/-- `DeepCollection.__getitem__(self, path)` acting on the wrapped value:
stringlike paths and non-iterable paths do a single native lookup on
`self._obj`; iterable paths run `get_by_path(self._obj, path)`.  (The final
re-wrapping of a deep result when `return_deep` is set wraps the same value
and is value-transparent, so it is not modelled.) -/
def dcGetItem (obj path : PyVal) : Except PyErr PyVal :=
  if stringlike path then pyGetItem obj path
  else
    match pyIterElems path with
    | none => pyGetItem obj path
    | some ks => get_by_path obj ks

/-- `DeepCollection.get(self, path, default)`: calls `__getitem__` and
catches `(KeyError, IndexError, TypeError)` — exactly the three constructors
of `PyErr`, so the catch is total here — returning the default instead. -/
def dcGet (obj path default : PyVal) : PyVal :=
  match dcGetItem obj path with
  | .ok v => v
  | .error _ => default

/-- C8: for any path that fails to resolve (with any of the three failure
kinds), `get` returns the default and never propagates the failure; the
lookup itself (`__getitem__`/`get_by_path`) returns the error unconverted,
the defaulting happens only in `get`. -/
theorem dcGet_default {obj path d : PyVal} {e : PyErr}
    (h : dcGetItem obj path = .error e) : dcGet obj path d = d := by
  simp [dcGet, h]

/-- Witness for C8: `DeepCollection({}).get("x", 7)` is `7`. -/
theorem dcGet_default_witness :
    dcGetItem (.vDict []) (.vStr "x") = .error .keyError
    ∧ dcGet (.vDict []) (.vStr "x") (.vInt 7) = .vInt 7 :=
  ⟨rfl, dcGet_default rfl⟩

/-! ### C1: native append and the synchronization of `self._obj`

Python variables hold references, so object identity matters here: the model
carries a small heap of list objects.  The caller's original list is heap
cell 0; `self._obj` is the reference `objRef`. -/

structure DCListState where
  selfElems : List PyVal
  heap : List (List PyVal)
  objRef : Nat

/-- Wrapping a caller-held list (heap cell 0): `super().__init__(obj)` (i.e.
`list.__init__`) copies the contents into the wrapper's own storage, and
`self._obj = obj` stores a reference to the caller's object. -/
def dcWrapList (xs : List PyVal) : DCListState :=
  { selfElems := xs, heap := [xs], objRef := 0 }

/-- `wrapper.append(x)` as dispatched through `__getattribute__`:
`list.append(self, x)` extends the wrapper's own storage; the
`_ensure_post_call_sync` wrapper then evaluates `self._obj != self` (Python
list equality) and, on mismatch, rebinds `self._obj = type(self._obj)(self)`
— which allocates a fresh list built from the wrapper's contents; it does
not mutate the object `self._obj` previously referred to. -/
def dcAppend (s : DCListState) (x : PyVal) : DCListState :=
  if pyEqL (s.heap.getD s.objRef []) (s.selfElems ++ [x]) then
    { s with selfElems := s.selfElems ++ [x] }
  else
    { selfElems := s.selfElems ++ [x], heap := s.heap ++ [s.selfElems ++ [x]],
      objRef := s.heap.length }

/-- C1 (amended): after `wrapper.append(x)` the wrapper's contents end in
`x`, and the attribute `self._obj` again refers to a list equal to the
wrapper's contents (rebound to a fresh list when they differed) — but no
pre-existing heap cell is modified: in particular the caller's original
sequence (cell 0) is left exactly as it was, so it does not reflect `x`. -/
theorem dcAppend_sync (s : DCListState) (x : PyVal) :
    (dcAppend s x).selfElems = s.selfElems ++ [x]
    ∧ ((dcAppend s x).heap.getD (dcAppend s x).objRef [] = s.selfElems ++ [x]
        ∨ pyEqL ((dcAppend s x).heap.getD (dcAppend s x).objRef [])
            (s.selfElems ++ [x]) = true)
    ∧ (dcAppend s x).heap.take s.heap.length = s.heap := by
  by_cases hc : pyEqL (s.heap.getD s.objRef []) (s.selfElems ++ [x]) = true
  · simp only [dcAppend, if_pos hc]
    exact ⟨trivial, Or.inr hc, List.take_length _⟩
  · simp only [dcAppend, if_neg hc]
    refine ⟨trivial, Or.inl ?_, List.take_left ..⟩
    rw [List.getD_append_right _ _ _ _ (Nat.le_refl _)]
    simp

/-- Counterexample to C1 as stated: wrap `[1]` and append `2`.  The wrapper
ends up holding `[1, 2]`, but the caller's original list object (heap cell 0)
still holds `[1]`: the sync step rebinds `self._obj` to a new list instead of
mutating the caller's object, so the originally-supplied sequence does not
contain the appended element. -/
theorem dcAppend_not_mutating_source :
    (dcAppend (dcWrapList [.vInt 1]) (.vInt 2)).selfElems = [.vInt 1, .vInt 2]
    ∧ (dcAppend (dcWrapList [.vInt 1]) (.vInt 2)).heap.getD 0 [] = [.vInt 1]
    ∧ (dcAppend (dcWrapList [.vInt 1]) (.vInt 2)).heap.getD 0 [] ≠ [.vInt 1, .vInt 2] := by
  have hc : pyEqL [PyVal.vInt 1] [PyVal.vInt 1, PyVal.vInt 2] = false := by
    simp [pyEqL, pyEq]
  refine ⟨?_, ?_, ?_⟩ <;> simp [dcAppend, dcWrapList, hc]

/-! ### `paths_to_field`

A generator run is modelled as the list of yielded paths followed by the
optional exception that ended the iteration (Python generators propagate an
exception to the consumer at the `next()` that hits it, after earlier yields
were already delivered). -/

abbrev Gen := List (List PyVal) × Option PyErr

def genNil : Gen := ([], none)

/-- `yield from a` then `yield from b`: if `a` ended in an exception, `b`
never runs. -/
def genAppend (a b : Gen) : Gen :=
  match a.2 with
  | some _ => a
  | none => (a.1 ++ b.1, b.2)

/-- The key sequence obtained by iterating a compound field (a list iterates
its elements, a dict its keys); only used under `can_be_deep field`. -/
def fieldElems : PyVal → List PyVal
  | .vList xs => xs
  | .vDict es => es.map Prod.fst
  | _ => []

mutual
/-- `paths_to_field(obj, field, current)`.  A non-deep `obj` raises
TypeError.  A compound field (itself can-be-deep) is probed with
`get_by_path(obj, field)` — any KeyError/IndexError/TypeError (all of
`PyErr`) means "does not resolve here", and the search recurses into every
child, leaves included (which then raise TypeError); on success the single
path `current + field` is yielded with no recursion.  A simple field is
compared against dict keys / list elements, and the search independently
recurses into can-be-deep values. -/
def paths_to_field (obj field : PyVal) (cur : List PyVal) : Gen :=
  if can_be_deep obj = false then ([], some .typeError)
  else if can_be_deep field then
    match get_by_path obj (fieldElems field) with
    | .ok _ => ([cur ++ fieldElems field], none)
    | .error _ =>
        match obj with
        | .vDict es => ptfCompDict es field cur
        | .vList xs => ptfCompList xs field cur 0
        | _ => genNil
  else
    match obj with
    | .vDict es => ptfSimpDict es field cur
    | .vList xs => ptfSimpList xs field cur 0
    | _ => genNil
termination_by sizeOf obj

/-- Compound field, mapping node: recurse into every value. -/
def ptfCompDict (es : List (PyVal × PyVal)) (field : PyVal) (cur : List PyVal) : Gen :=
  match es with
  | [] => genNil
  | (k, v) :: rest =>
      genAppend (paths_to_field v field (cur ++ [k])) (ptfCompDict rest field cur)
termination_by sizeOf es

/-- Compound field, sequence node: recurse into every element (`idx` is the
position of the first element of `xs` in the enumerated sequence). -/
def ptfCompList (xs : List PyVal) (field : PyVal) (cur : List PyVal) (idx : Nat) : Gen :=
  match xs with
  | [] => genNil
  | i :: rest =>
      genAppend (paths_to_field i field (cur ++ [.vInt idx])) (ptfCompList rest field cur (idx + 1))
termination_by sizeOf xs

/-- Simple field, mapping node: `if k == field: yield current + [k]`, then
recurse into can-be-deep values. -/
def ptfSimpDict (es : List (PyVal × PyVal)) (field : PyVal) (cur : List PyVal) : Gen :=
  match es with
  | [] => genNil
  | (k, v) :: rest =>
      genAppend
        (genAppend (if pyEq k field then ([cur ++ [k]], none) else genNil)
          (if can_be_deep v then paths_to_field v field (cur ++ [k]) else genNil))
        (ptfSimpDict rest field cur)
termination_by sizeOf es

/-- Simple field, sequence node: `if i == field: yield current + [idx]`
(note: the element is compared, the index is yielded), then recurse into
can-be-deep elements. -/
def ptfSimpList (xs : List PyVal) (field : PyVal) (cur : List PyVal) (idx : Nat) : Gen :=
  match xs with
  | [] => genNil
  | i :: rest =>
      genAppend
        (genAppend (if pyEq i field then ([cur ++ [.vInt idx]], none) else genNil)
          (if can_be_deep i then paths_to_field i field (cur ++ [.vInt idx]) else genNil))
        (ptfSimpList rest field cur (idx + 1))
termination_by sizeOf xs
end

/-! ### C2: yielded paths resolve and match -/

theorem genAppend_mem {a b : Gen} {p : List PyVal} (h : p ∈ (genAppend a b).1) :
    p ∈ a.1 ∨ p ∈ b.1 := by
  rw [genAppend] at h
  cases ha : a.2 with
  | some e => rw [ha] at h; exact Or.inl h
  | none => rw [ha] at h; simpa using h

theorem get_by_path_cons_ok {obj k v : PyVal} (ks : List PyVal)
    (h : pyGetItem obj k = .ok v) : get_by_path obj (k :: ks) = get_by_path v ks := by
  simp [get_by_path, h]

theorem pyListGet_drop {xs : List PyVal} {idx : Nat} {i : PyVal} {r : List PyVal}
    (h : xs.drop idx = i :: r) : pyGetItem (.vList xs) (.vInt idx) = .ok i := by
  have hlt : idx < xs.length := by
    by_contra hge
    rw [List.drop_eq_nil_of_le (by omega)] at h
    cases h
  have hsome : xs[idx]? = some i := by
    have h0 : (xs.drop idx)[0]? = some i := by rw [h]; simp
    rw [List.getElem?_drop] at h0
    simpa using h0
  have hidx : listIdx xs.length (idx : Int) = some idx := by
    simp only [listIdx, idxNorm]
    have h0 : ¬ ((idx : Int) < 0) := by omega
    rw [if_neg h0, if_pos ⟨by omega, by omega⟩]
    simp
  simp [pyGetItem, pyListGet, hidx, hsome]

theorem drop_cons_succ {α : Type} {xs : List α} {idx : Nat} {i : α} {r : List α}
    (h : xs.drop idx = i :: r) : xs.drop (idx + 1) = r := by
  have h2 := List.drop_drop 1 idx xs
  rw [h] at h2
  simpa [Nat.add_comm] using h2.symm

/-- What a yielded path must look like at the node it was produced under:
for a compound field, the field's key sequence is a suffix of the remainder;
for a simple field, the remainder is nonempty and either ends in a key equal
to the field (mapping match) or resolves to a value equal to the field
(sequence match). -/
def FieldMatch (obj field : PyVal) (rest : List PyVal) : Prop :=
  if can_be_deep field = true then List.IsSuffix (fieldElems field) rest
  else rest ≠ [] ∧
    ((∃ k, rest.getLast? = some k ∧ pyEq k field = true)
      ∨ (∃ w, get_by_path obj rest = .ok w ∧ pyEq w field = true))

theorem fieldMatch_lift {obj v field k : PyVal} {rest : List PyVal}
    (hget : pyGetItem obj k = .ok v) (hm : FieldMatch v field rest) :
    FieldMatch obj field (k :: rest) := by
  rw [FieldMatch] at hm ⊢
  by_cases hf : can_be_deep field = true
  · rw [if_pos hf] at hm ⊢
    exact hm.trans (List.suffix_cons k rest)
  · rw [if_neg hf] at hm ⊢
    obtain ⟨hne, hdisj⟩ := hm
    refine ⟨by simp, ?_⟩
    rcases hdisj with ⟨k2, hlast, hq⟩ | ⟨w, hw, hq⟩
    · left
      refine ⟨k2, ?_, hq⟩
      cases rest with
      | nil => exact absurd rfl hne
      | cons r rs => rw [List.getLast?_cons_cons]; exact hlast
    · right
      exact ⟨w, by rw [get_by_path_cons_ok _ hget]; exact hw, hq⟩

theorem sound_child_lift {obj v field k : PyVal} {cur p : List PyVal}
    (hget : pyGetItem obj k = .ok v)
    (h : ∃ rest2, p = (cur ++ [k]) ++ rest2 ∧ (get_by_path v rest2).isOk = true
        ∧ FieldMatch v field rest2) :
    ∃ rest, p = cur ++ rest ∧ (get_by_path obj rest).isOk = true
      ∧ FieldMatch obj field rest := by
  obtain ⟨rest2, hp, hok, hm⟩ := h
  refine ⟨k :: rest2, by simpa using hp, ?_, fieldMatch_lift hget hm⟩
  rw [get_by_path_cons_ok _ hget]
  exact hok

/-- Soundness of the search, relative to the accumulated path: every yielded
path extends `cur`, the extension resolves from the current node, and the
extension matches the field as in `FieldMatch`. -/
theorem paths_to_field_sound :
    ∀ obj : PyVal, ∀ (field : PyVal) (cur : List PyVal), wf obj = true →
      ∀ p ∈ (paths_to_field obj field cur).1,
        ∃ rest, p = cur ++ rest ∧ (get_by_path obj rest).isOk = true
          ∧ FieldMatch obj field rest := by
  apply pyval_size_ind (fun obj => ∀ (field : PyVal) (cur : List PyVal), wf obj = true →
    ∀ p ∈ (paths_to_field obj field cur).1,
      ∃ rest, p = cur ++ rest ∧ (get_by_path obj rest).isOk = true
        ∧ FieldMatch obj field rest)
  intro obj ih field cur hwf p hp
  cases obj with
  | vInt n =>
      simp [paths_to_field, can_be_deep] at hp
  | vStr s =>
      simp [paths_to_field, can_be_deep] at hp
  | vDict es =>
      rw [paths_to_field] at hp
      rw [if_neg (show ¬ can_be_deep (.vDict es) = false by simp [can_be_deep])] at hp
      have hwf2 := hwf
      rw [wf] at hwf2
      simp only [Bool.and_eq_true] at hwf2
      obtain ⟨hok, hvals⟩ := hwf2
      have hkey : ∀ (k2 v2 : PyVal), (k2, v2) ∈ es →
          pyGetItem (.vDict es) k2 = .ok v2 := by
        intro k2 v2 hm
        simp [pyGetItem, pyDictGet, keysOk_mem_hashable hok hm, pyFind_self hok hm]
      by_cases hf : can_be_deep field = true
      · rw [if_pos hf] at hp
        cases hprobe : get_by_path (.vDict es) (fieldElems field) with
        | ok w =>
            simp only [hprobe] at hp
            have hp2 : p = cur ++ fieldElems field := by simpa using hp
            refine ⟨fieldElems field, hp2, by rw [hprobe]; rfl, ?_⟩
            rw [FieldMatch, if_pos hf]
        | error e =>
            simp only [hprobe] at hp
            have hcomp : ∀ es2 : List (PyVal × PyVal), (∀ e2, e2 ∈ es2 → e2 ∈ es) →
                ∀ p2 ∈ (ptfCompDict es2 field cur).1,
                  ∃ rest, p2 = cur ++ rest
                    ∧ (get_by_path (PyVal.vDict es) rest).isOk = true
                    ∧ FieldMatch (PyVal.vDict es) field rest := by
              intro es2
              induction es2 with
              | nil => intro _ p2 hp2; rw [ptfCompDict] at hp2; cases hp2
              | cons e2 rest2 ihe =>
                  obtain ⟨k2, v2⟩ := e2
                  intro hsub p2 hp2
                  rw [ptfCompDict] at hp2
                  rcases genAppend_mem hp2 with h1 | h2
                  · have hmem : (k2, v2) ∈ es := hsub _ (List.mem_cons_self ..)
                    exact sound_child_lift (hkey _ _ hmem)
                      (ih v2 (sizeOf_lt_vDict hmem) field (cur ++ [k2])
                        (wfE_mem hvals hmem) p2 h1)
                  · exact ihe (fun e3 he => hsub e3 (List.mem_cons_of_mem _ he)) p2 h2
            exact hcomp es (fun e2 he => he) p hp
      · rw [if_neg hf] at hp
        have hsimp : ∀ es2 : List (PyVal × PyVal), (∀ e2, e2 ∈ es2 → e2 ∈ es) →
            ∀ p2 ∈ (ptfSimpDict es2 field cur).1,
              ∃ rest, p2 = cur ++ rest
                ∧ (get_by_path (PyVal.vDict es) rest).isOk = true
                ∧ FieldMatch (PyVal.vDict es) field rest := by
          intro es2
          induction es2 with
          | nil => intro _ p2 hp2; rw [ptfSimpDict] at hp2; cases hp2
          | cons e2 rest2 ihe =>
              obtain ⟨k2, v2⟩ := e2
              intro hsub p2 hp2
              rw [ptfSimpDict] at hp2
              rcases genAppend_mem hp2 with h12 | h3
              · rcases genAppend_mem h12 with h1 | h2
                · by_cases hq : pyEq k2 field = true
                  · rw [if_pos hq] at h1
                    have hp3 : p2 = cur ++ [k2] := by simpa using h1
                    have hmem : (k2, v2) ∈ es := hsub _ (List.mem_cons_self ..)
                    refine ⟨[k2], hp3, ?_, ?_⟩
                    · rw [get_by_path_cons_ok _ (hkey _ _ hmem)]
                      rfl
                    · rw [FieldMatch, if_neg hf]
                      exact ⟨by simp, Or.inl ⟨k2, rfl, hq⟩⟩
                  · rw [if_neg hq] at h1
                    cases h1
                · by_cases hdeep : can_be_deep v2 = true
                  · rw [if_pos hdeep] at h2
                    have hmem : (k2, v2) ∈ es := hsub _ (List.mem_cons_self ..)
                    exact sound_child_lift (hkey _ _ hmem)
                      (ih v2 (sizeOf_lt_vDict hmem) field (cur ++ [k2])
                        (wfE_mem hvals hmem) p2 h2)
                  · rw [if_neg hdeep] at h2
                    cases h2
              · exact ihe (fun e3 he => hsub e3 (List.mem_cons_of_mem _ he)) p2 h3
        have hpr : p ∈ (ptfSimpDict es field cur).1 := by simpa using hp
        exact hsimp es (fun e2 he => he) p hpr
  | vList xs =>
      rw [paths_to_field] at hp
      rw [if_neg (show ¬ can_be_deep (.vList xs) = false by simp [can_be_deep])] at hp
      have hwf2 := hwf
      rw [wf] at hwf2
      by_cases hf : can_be_deep field = true
      · rw [if_pos hf] at hp
        cases hprobe : get_by_path (.vList xs) (fieldElems field) with
        | ok w =>
            simp only [hprobe] at hp
            have hp2 : p = cur ++ fieldElems field := by simpa using hp
            refine ⟨fieldElems field, hp2, by rw [hprobe]; rfl, ?_⟩
            rw [FieldMatch, if_pos hf]
        | error e =>
            simp only [hprobe] at hp
            have hcompL : ∀ (xs2 : List PyVal) (idx : Nat), xs.drop idx = xs2 →
                ∀ p2 ∈ (ptfCompList xs2 field cur idx).1,
                  ∃ rest, p2 = cur ++ rest
                    ∧ (get_by_path (PyVal.vList xs) rest).isOk = true
                    ∧ FieldMatch (PyVal.vList xs) field rest := by
              intro xs2
              induction xs2 with
              | nil => intro idx _ p2 hp2; rw [ptfCompList] at hp2; cases hp2
              | cons i rest2 ihe =>
                  intro idx hdrop p2 hp2
                  rw [ptfCompList] at hp2
                  rcases genAppend_mem hp2 with h1 | h2
                  · have hget := pyListGet_drop hdrop
                    have hmi : i ∈ xs := List.drop_subset idx xs
                      (hdrop ▸ List.mem_cons_self ..)
                    exact sound_child_lift hget
                      (ih i (sizeOf_lt_vList hmi) field (cur ++ [.vInt idx])
                        (wfL_mem hwf2 hmi) p2 h1)
                  · exact ihe (idx + 1) (drop_cons_succ hdrop) p2 h2
            exact hcompL xs 0 rfl p hp
      · rw [if_neg hf] at hp
        have hsimpL : ∀ (xs2 : List PyVal) (idx : Nat), xs.drop idx = xs2 →
            ∀ p2 ∈ (ptfSimpList xs2 field cur idx).1,
              ∃ rest, p2 = cur ++ rest
                ∧ (get_by_path (PyVal.vList xs) rest).isOk = true
                ∧ FieldMatch (PyVal.vList xs) field rest := by
          intro xs2
          induction xs2 with
          | nil => intro idx _ p2 hp2; rw [ptfSimpList] at hp2; cases hp2
          | cons i rest2 ihe =>
              intro idx hdrop p2 hp2
              rw [ptfSimpList] at hp2
              rcases genAppend_mem hp2 with h12 | h3
              · rcases genAppend_mem h12 with h1 | h2
                · by_cases hq : pyEq i field = true
                  · rw [if_pos hq] at h1
                    have hp3 : p2 = cur ++ [.vInt idx] := by simpa using h1
                    have hget := pyListGet_drop hdrop
                    refine ⟨[.vInt idx], hp3, ?_, ?_⟩
                    · rw [get_by_path_cons_ok _ hget]
                      rfl
                    · rw [FieldMatch, if_neg hf]
                      refine ⟨by simp, Or.inr ⟨i, ?_, hq⟩⟩
                      rw [get_by_path_cons_ok _ hget]
                      rfl
                  · rw [if_neg hq] at h1
                    cases h1
                · by_cases hdeep : can_be_deep i = true
                  · rw [if_pos hdeep] at h2
                    have hget := pyListGet_drop hdrop
                    have hmi : i ∈ xs := List.drop_subset idx xs
                      (hdrop ▸ List.mem_cons_self ..)
                    exact sound_child_lift hget
                      (ih i (sizeOf_lt_vList hmi) field (cur ++ [.vInt idx])
                        (wfL_mem hwf2 hmi) p2 h2)
                  · rw [if_neg hdeep] at h2
                    cases h2
              · exact ihe (idx + 1) (drop_cons_succ hdrop) p2 h3
        have hpr : p ∈ (ptfSimpList xs field cur 0).1 := by simpa using hp
        exact hsimpL xs 0 rfl p hpr

/-- C2 (amended): every path yielded by `paths_to_field` resolves via
`get_by_path` without error, and — per `FieldMatch` — either the compound
field is a suffix of the path, or (simple field) the path ends in a key
Python-equal to the field (mapping match) or resolves to a value
Python-equal to the field (sequence-position match; the code compares the
*element* and yields the *index*, so the final key need not equal the
field). -/
theorem paths_to_field_resolves {obj field : PyVal} (hwf : wf obj = true) :
    ∀ p ∈ (paths_to_field obj field []).1,
      (get_by_path obj p).isOk = true ∧ FieldMatch obj field p := by
  intro p hp
  obtain ⟨rest, hpr, hok, hm⟩ := paths_to_field_sound obj field [] hwf p hp
  have hpr2 : p = rest := by simpa using hpr
  subst hpr2
  exact ⟨hok, hm⟩

/-- Counterexample to C2 as stated: searching the list `["a", "b"]` for the
simple field `"b"` yields exactly the path `[1]` — the matching element's
index — whose final key `1` does not equal the field `"b"`.  (The path does
resolve; only the "final key equals the simple field" part fails.) -/
theorem paths_to_field_index_not_field :
    (paths_to_field (.vList [.vStr "a", .vStr "b"]) (.vStr "b") []).1 = [[.vInt 1]]
    ∧ pyEq (.vInt 1) (.vStr "b") = false := by
  have ha : pyEq (.vStr "a") (.vStr "b") = false := by simp [pyEq]
  have hb : pyEq (.vStr "b") (.vStr "b") = true := by simp [pyEq]
  constructor
  · simp [paths_to_field, can_be_deep, ptfSimpList, genAppend, genNil, ha, hb]
  · simp [pyEq]

/-- Witness for C2 (amended) at the same concrete search. -/
theorem paths_to_field_resolves_witness :
    wf (.vList [.vStr "a", .vStr "b"]) = true
    ∧ [PyVal.vInt 1] ∈ (paths_to_field (.vList [.vStr "a", .vStr "b"]) (.vStr "b") []).1
    ∧ ((get_by_path (.vList [.vStr "a", .vStr "b"]) [.vInt 1]).isOk = true
        ∧ FieldMatch (.vList [.vStr "a", .vStr "b"]) (.vStr "b") [.vInt 1]) := by
  have hwf : wf (.vList [.vStr "a", .vStr "b"]) = true := by simp [wf, wfL]
  have ha : pyEq (.vStr "a") (.vStr "b") = false := by simp [pyEq]
  have hb : pyEq (.vStr "b") (.vStr "b") = true := by simp [pyEq]
  have hmem : [PyVal.vInt 1]
      ∈ (paths_to_field (.vList [.vStr "a", .vStr "b"]) (.vStr "b") []).1 := by
    simp [paths_to_field, can_be_deep, ptfSimpList, genAppend, genNil, ha, hb]
  exact ⟨hwf, hmem, paths_to_field_resolves hwf _ hmem⟩
